import Mathlib

/-
Shallow embedding of the report-generation pipeline of `src/app.py`
(`generate_savvy_pdf` and its helpers).  Strings are modelled as `List Char`,
pandas/numpy numbers as `ℚ` (with an explicit IEEE-style extension `PFloat`
where the float special values inf and nan matter), nullable columns as
`Option`, and tables as lists of row structures.
-/

namespace Savvy

/-- Characters of a string mapped to lower case, modelling the
case-insensitive matching used by `Series.str.contains(..., case=False)`. -/
def toLowerList (s : List Char) : List Char := s.map Char.toLower

/-- Contiguous-substring test: `containsSeq p s` holds when `p` occurs as a
contiguous run inside `s`, modelling the Python `in` operator on strings. -/
def containsSeq (p : List Char) : List Char → Bool
  | [] => p.isEmpty
  | c :: rest => p.isPrefixOf (c :: rest) || containsSeq p rest

/-- Case-insensitive substring test: models
`Series.str.contains(pat, case=False)` for a literal pattern `pat`
(the patterns used in `app.py` contain no regex metacharacters). -/
def containsCI (needle hay : List Char) : Bool :=
  containsSeq (toLowerList needle) (toLowerList hay)

/-- Whitespace trim on both ends, modelling Python `str.strip()` /
pandas `Series.str.strip()`. -/
def trim (s : List Char) : List Char :=
  ((s.dropWhile Char.isWhitespace).reverse.dropWhile Char.isWhitespace).reverse

/-- Fuel-indexed worker for `replaceAll`.  The fuel only bounds the recursion
depth; any fuel of at least the length of the scanned list gives the same
result, which keeps the definition structural (and hence kernel-reducible). -/
def replFuel (p r : List Char) : Nat → List Char → List Char
  | _, [] => []
  | 0, s => s
  | fuel + 1, c :: rest =>
    if p.isPrefixOf (c :: rest) then r ++ replFuel p r fuel (rest.drop (p.length - 1))
    else c :: replFuel p r fuel rest

/-- Left-to-right, non-overlapping replacement of every occurrence of `p`
by `r`, modelling `Series.str.replace(p, r, regex=False)` (Python
`str.replace` semantics) for a non-empty pattern; for the empty pattern it
returns the input unchanged (never used by the pipeline). -/
def replaceAll (p r s : List Char) : List Char :=
  if p.isEmpty then s else replFuel p r s.length s

/-- Fixed list of label-cleanup strings removed from the `Class` column,
from the loop at `app.py` line 65. -/
def cleanupStrings : List (List Char) :=
  ["Savvy Total Portfolios - ".data, "Savvy US Equity - ".data,
   "Savvy Strategic 90/10 ".data, "STP - Moderate Aggressive - ".data]

/-- Removal of each cleanup string in turn from a `Class` label
(`app.py` lines 65-66). -/
def stripCleanup (s : List Char) : List Char :=
  cleanupStrings.foldl (fun acc p => replaceAll p [] acc) s

/-- Full label normalization of `app.py` lines 65-67: cleanup-string removal,
then the literal replacement of `U.S.` by `US`, then a whitespace strip. -/
def cleanLabel (s : List Char) : List Char :=
  trim (replaceAll "U.S.".data "US".data (stripCleanup s))

/-- Insert `x` before the first element whose key is at most the key of `x`:
the building block of the stable descending sort. -/
def insertDescBy {α : Type} (key : α → ℚ) (x : α) : List α → List α
  | [] => [x]
  | y :: ys => if key y ≤ key x then x :: y :: ys else y :: insertDescBy key x ys

/-- Sort by `key` descending, modelling
`DataFrame.sort_values(col, ascending=False)`.  The program leaves the
relative order of tied keys to numpy's default `quicksort` argsort, which
is unstable above its small insertion-sort threshold, so the tie order is
an unspecified implementation detail of the program; this embedding fixes
one deterministic (stable) tie order, and the theorems proved about it use
only consequences that are invariant under the order of tied elements
(membership, length, key ordering). -/
def sortDescBy {α : Type} (key : α → ℚ) (l : List α) : List α :=
  l.foldr (insertDescBy key) []

/-- Row of the `Model Tolerance` sheet restricted to the four selected
columns (`app.py` line 64). -/
structure MTRow where
  classLabel : List Char
  currentPct : ℚ
  targetPct : ℚ
  tradeAmt : ℚ
deriving DecidableEq

/-- Allocation row after normalization: cleaned label plus the derived
`Change %` column. -/
structure AARow where
  label : List Char
  currentPct : ℚ
  targetPct : ℚ
  tradeAmt : ℚ
  changePct : ℚ
deriving DecidableEq

/-- Label cleanup and the derived `Change % = Target % - Current %` column
(`app.py` lines 65-68). -/
def mkAARow (r : MTRow) : AARow :=
  { label := cleanLabel r.classLabel, currentPct := r.currentPct,
    targetPct := r.targetPct, tradeAmt := r.tradeAmt,
    changePct := r.targetPct - r.currentPct }

/-- Canonical relabel target of `app.py` line 72. -/
def cashEquivalents : List Char := "Cash Equivalents".data

/-- Test of `app.py` line 71: does the normalized label contain `Cash`,
case-insensitively. -/
def hasCash (r : AARow) : Bool := containsCI "Cash".data r.label

/-- Relabeling of `app.py` lines 71-72: the first row whose label contains
`Cash` (case-insensitive) has its label overwritten with
`Cash Equivalents`; all other rows are untouched. -/
def relabelCash : List AARow → List AARow
  | [] => []
  | r :: rest =>
    if hasCash r then { r with label := cashEquivalents } :: rest
    else r :: relabelCash rest

/-- Whole allocation normalization of `app.py` lines 64-72: clean labels and
derive `Change %`, sort by `Target %` descending, then relabel the first
cash row. -/
def normalizeAA (t : List MTRow) : List AARow :=
  relabelCash (sortDescBy (fun r => r.targetPct) (t.map mkAARow))

/-- Row of the `Holding and Trade Details` sheet.  `ticker` and `acctNum`
are taken after the `astype(str)` coercion the code applies; nullable
numeric columns are `Option ℚ` with `none` for NaN (or, for `tradeGL`, an
absent column). -/
structure HTRow where
  category : Option (List Char)
  ticker : List Char
  securityName : List Char
  acctNum : List Char
  tradeAmt : Option ℚ
  tradeGL : Option ℚ
deriving DecidableEq

/-- Sweep-cash marker excluded from rankings (`app.py` line 76). -/
def custodialMarker : List Char := "CUSTODIAL_CASH".data

/-- Filters of `app.py` lines 75-76: keep rows whose `Trade $` is present
and non-zero, then drop rows whose ticker contains the custodial-cash
marker case-insensitively. -/
def eligibleTrades (rows : List HTRow) : List HTRow :=
  (rows.filter (fun r => r.tradeAmt.isSome && decide (r.tradeAmt ≠ some 0))).filter
    (fun r => !containsCI custodialMarker r.ticker)

/-- Value of the `Trade $` cell; on eligible rows the column is never null,
so the default is never observed there. -/
def tradeVal (r : HTRow) : ℚ := r.tradeAmt.getD 0

/-- Derived `abs_trade` column of `app.py` line 77. -/
def absTrade (r : HTRow) : ℚ := |tradeVal r|

/-- Value of the `Trade G/L $` cell after `fillna(0)` (and after an absent
column is materialized as all-zero), `app.py` lines 80-81. -/
def glVal (r : HTRow) : ℚ := r.tradeGL.getD 0

/-- Top-buys selection of `app.py` line 83: positive trades sorted by
`abs_trade` descending, first five. -/
def topBuys (rows : List HTRow) : List HTRow :=
  (sortDescBy absTrade ((eligibleTrades rows).filter (fun r => decide (0 < tradeVal r)))).take 5

/-- Top-sells selection of `app.py` line 84: negative trades sorted by
`abs_trade` descending, first five. -/
def topSells (rows : List HTRow) : List HTRow :=
  (sortDescBy absTrade ((eligibleTrades rows).filter (fun r => decide (tradeVal r < 0)))).take 5

/-- Derived `Acct4` column of `app.py` line 78: on the textual account
number, keep the part before the first `.` (dropping a trailing
fractional suffix such as `.0`) and take the last four characters
(Python `[-4:]`, which returns the whole string when it is shorter). -/
def acct4 (s : List Char) : List Char :=
  let pre := s.takeWhile (fun c => !(c == '.'))
  pre.drop (pre.length - 4)

/-- Worker for `uniqueFirst` carrying the set of values already seen. -/
def uniqueFirstAux {α : Type} [DecidableEq α] (seen : List α) : List α → List α
  | [] => []
  | a :: l =>
    if a ∈ seen then uniqueFirstAux seen l else a :: uniqueFirstAux (a :: seen) l

/-- Distinct values in first-occurrence order, modelling pandas
`Series.unique()`. -/
def uniqueFirst {α : Type} [DecidableEq α] (l : List α) : List α := uniqueFirstAux [] l

/-- Literal compared against at `app.py` line 60. -/
def unassignedLit : List Char := "unassigned".data

/-- Validity test of `app.py` line 60: a model guess is kept when its
trimmed, lowercased form differs from `unassigned`. -/
def isValidModel (m : List Char) : Bool := decide (toLowerList (trim m) ≠ unassignedLit)

/-- Distinct non-null `Model Category` values in first-occurrence order
(`app.py` line 59, `dropna().unique()`). -/
def modelGuesses (col : List (Option (List Char))) : List (List Char) :=
  uniqueFirst (col.filterMap id)

/-- Fallback model name of `app.py` line 61. -/
def defaultModel : List Char := "Savvy Strategic Model".data

/-- Target-model selection of `app.py` lines 59-61: first valid guess,
trimmed, else the fixed default. -/
def targetModel (col : List (Option (List Char))) : List Char :=
  ((modelGuesses col).filterMap
    (fun m => if isValidModel m then some (trim m) else none)).headD defaultModel

/-- Required logical sheets and their name substrings (`app.py` lines
44-49); in the code the key and the substring coincide. -/
def requiredSheets : List ((List Char) × (List Char)) :=
  [("Model Tolerance".data, "Model Tolerance".data),
   ("Holding and Trade Details".data, "Holding and Trade Details".data),
   ("Gain Loss Details".data, "Gain Loss Details".data),
   ("Account and Cash Details".data, "Account and Cash Details".data)]

/-- First actual sheet name containing the required substring, modelling
`next((s for s in xlsx.sheet_names if sheet_name in s), None)` at
`app.py` line 52. -/
def findSheet (names : List (List Char)) (sub : List Char) : Option (List Char) :=
  names.find? (fun s => containsSeq sub s)

/-- Error message of `app.py` line 54. -/
def missingMsg (sub : List Char) : List Char :=
  "Missing sheet: ".data ++ sub ++ ".".data

/-- Sheet-location loop of `app.py` lines 51-54: bind each logical name to
the first matching actual sheet, or fail with the message naming the first
missing sheet; on failure nothing is returned besides the message. -/
def locateSheets (names : List (List Char)) :
    List ((List Char) × (List Char)) → Except (List Char) (List ((List Char) × (List Char)))
  | [] => Except.ok []
  | (key, sub) :: rest =>
    match findSheet names sub with
    | some s =>
      match locateSheets names rest with
      | Except.ok m => Except.ok ((key, s) :: m)
      | Except.error e => Except.error e
    | none => Except.error (missingMsg sub)

/-- Numeric domain of the financial metrics: exact rationals extended with
the IEEE special values produced by numpy float arithmetic.  Signed zero is
collapsed onto `fin 0`, which is sound for every computation modelled
here. -/
inductive PFloat where
  | fin : ℚ → PFloat
  | inf : PFloat
  | ninf : PFloat
  | nan : PFloat
deriving DecidableEq

/-- Division with numpy float64 semantics: a finite non-zero value divided
by zero silently yields a signed infinity (numpy only emits a
`RuntimeWarning`), `0/0` yields nan, and nan propagates. -/
def pfDiv : PFloat → PFloat → PFloat
  | PFloat.fin x, PFloat.fin y =>
    if y = 0 then (if 0 < x then PFloat.inf else if x < 0 then PFloat.ninf else PFloat.nan)
    else PFloat.fin (x / y)
  | PFloat.fin _, PFloat.inf => PFloat.fin 0
  | PFloat.fin _, PFloat.ninf => PFloat.fin 0
  | PFloat.inf, PFloat.fin y => if 0 ≤ y then PFloat.inf else PFloat.ninf
  | PFloat.ninf, PFloat.fin y => if 0 ≤ y then PFloat.ninf else PFloat.inf
  | _, _ => PFloat.nan

/-- Multiplication by a positive finite constant (the `* 100` of the tax
impact formula). -/
def pfScale (c : ℚ) : PFloat → PFloat
  | PFloat.fin x => PFloat.fin (x * c)
  | PFloat.inf => PFloat.inf
  | PFloat.ninf => PFloat.ninf
  | PFloat.nan => PFloat.nan

/-- Tax-impact value of `app.py` line 122:
`(cg['Estimated Tax'] / total_val) * 100` with no zero-denominator
check of any kind. -/
def taxImpactPct (tax total : PFloat) : PFloat :=
  pfScale 100 (pfDiv tax total)

/-- Round to the nearest integer, ties to even: the rounding applied by
Python `format(x, '.2f')` (on the values scaled by 100). -/
def roundHalfEvenQ (x : ℚ) : ℤ :=
  let f := Rat.floor x
  let frac := x - (f : ℚ)
  if frac < 1 / 2 then f
  else if 1 / 2 < frac then f + 1
  else if f % 2 = 0 then f else f + 1

/-- Decimal digits of a natural number. -/
def natDigits (n : Nat) : List Char := Nat.toDigits 10 n

/-- Two-digit zero-padded rendering of a value below 100. -/
def pad2 (n : Nat) : List Char := if n < 10 then '0' :: natDigits n else natDigits n

/-- Rendering of a finite value with Python `.2f` formatting. -/
def fmtFixed2 (q : ℚ) : List Char :=
  let n := roundHalfEvenQ (q * 100)
  let m := n.natAbs
  (if n < 0 then ['-'] else []) ++ natDigits (m / 100) ++ ['.'] ++ pad2 (m % 100)

/-- Python `.2f` formatting over the extended domain: the special values
format as the literal strings `inf`, `-inf` and `nan`, exactly as a Python
f-string renders them. -/
def pfFmt2 : PFloat → List Char
  | PFloat.fin q => fmtFixed2 q
  | PFloat.inf => "inf".data
  | PFloat.ninf => "-inf".data
  | PFloat.nan => "nan".data

/-- Rendered `TAX IMPACT %` metric cell of `app.py` line 122:
the formatted tax impact followed by a percent sign. -/
def taxImpactCell (tax total : PFloat) : List Char :=
  pfFmt2 (taxImpactPct tax total) ++ "%".data

/-- Sum of the `Account Value` column over all rows (`app.py` line 87). -/
def accountTotal (vals : List ℚ) : ℚ := vals.sum

/-- Accent colors of `app.py` lines 14-15. -/
def GREEN : List Char := "#2e7d32".data

/-- Negative accent color. -/
def RED : List Char := "#c62828".data

/-- Sign coloring of the allocation table's `Change %` and `Trade Amount`
cells (`app.py` lines 141-144): `some` is an applied accent color, `none`
the neutral default.  The input is the numeric value parsed back from the
rendered cell text. -/
def aaSignedCellColor (val : ℚ) : Option (List Char) :=
  if val ≠ 0 then some (if 0 < val then GREEN else RED) else none

/-- Sign coloring of the sell-side `Trade Amount`/gain-loss cell
(`app.py` lines 186-189): the accent color is applied unconditionally,
green for a strictly positive gain and red otherwise. -/
def sellGLCellColor (gl : ℚ) : Option (List Char) :=
  some (if 0 < gl then GREEN else RED)

/-- Unfolding of the stable sort on a cons cell. -/
theorem sortDescBy_cons {α : Type} (key : α → ℚ) (y : α) (ys : List α) :
    sortDescBy key (y :: ys) = insertDescBy key y (sortDescBy key ys) := rfl

/-- Membership through one insertion step. -/
theorem mem_insertDescBy {α : Type} (key : α → ℚ) (x : α) (l : List α) (a : α) :
    a ∈ insertDescBy key x l ↔ a = x ∨ a ∈ l := by
  induction l with
  | nil => simp [insertDescBy]
  | cons y ys ih =>
    by_cases h : key y ≤ key x
    · simp [insertDescBy, h]
    · simp only [insertDescBy, if_neg h, List.mem_cons, ih]
      tauto

/-- Insertion grows the length by one. -/
theorem length_insertDescBy {α : Type} (key : α → ℚ) (x : α) (l : List α) :
    (insertDescBy key x l).length = l.length + 1 := by
  induction l with
  | nil => rfl
  | cons y ys ih =>
    by_cases h : key y ≤ key x
    · simp [insertDescBy, h]
    · simp only [insertDescBy, if_neg h, List.length_cons, ih]

/-- The sort permutes membership. -/
theorem mem_sortDescBy {α : Type} (key : α → ℚ) (l : List α) (a : α) :
    a ∈ sortDescBy key l ↔ a ∈ l := by
  induction l with
  | nil => simp [sortDescBy]
  | cons y ys ih =>
    rw [sortDescBy_cons, mem_insertDescBy, ih, List.mem_cons]

/-- The sort preserves the length. -/
theorem length_sortDescBy {α : Type} (key : α → ℚ) (l : List α) :
    (sortDescBy key l).length = l.length := by
  induction l with
  | nil => rfl
  | cons y ys ih =>
    rw [sortDescBy_cons, length_insertDescBy, ih, List.length_cons]

/-- Insertion preserves the descending-key pairwise invariant. -/
theorem pairwise_insertDescBy {α : Type} (key : α → ℚ) (x : α) (l : List α)
    (h : l.Pairwise fun a b => key b ≤ key a) :
    (insertDescBy key x l).Pairwise fun a b => key b ≤ key a := by
  induction l with
  | nil => simp [insertDescBy]
  | cons y ys ih =>
    rcases List.pairwise_cons.mp h with ⟨hy, hys⟩
    by_cases hle : key y ≤ key x
    · simp only [insertDescBy, if_pos hle]
      refine List.pairwise_cons.mpr ⟨?_, h⟩
      intro b hb
      rcases List.mem_cons.mp hb with rfl | hb
      · exact hle
      · exact le_trans (hy b hb) hle
    · simp only [insertDescBy, if_neg hle]
      refine List.pairwise_cons.mpr ⟨?_, ih hys⟩
      intro b hb
      rcases (mem_insertDescBy key x ys b).mp hb with rfl | hb
      · exact le_of_not_le hle
      · exact hy b hb

/-- The sort output is pairwise descending in the key. -/
theorem pairwise_sortDescBy {α : Type} (key : α → ℚ) (l : List α) :
    (sortDescBy key l).Pairwise fun a b => key b ≤ key a := by
  induction l with
  | nil => simp [sortDescBy]
  | cons y ys ih =>
    rw [sortDescBy_cons]
    exact pairwise_insertDescBy key y _ ih

/-- Any sufficiently large fuel computes the same replacement. -/
theorem replFuel_congr (p r : List Char) :
    ∀ (f₁ f₂ : Nat) (s : List Char), s.length ≤ f₁ → s.length ≤ f₂ →
      replFuel p r f₁ s = replFuel p r f₂ s := by
  intro f₁
  induction f₁ with
  | zero =>
    intro f₂ s h₁ _
    have hs : s = [] := List.eq_nil_of_length_eq_zero (Nat.le_zero.mp h₁)
    subst hs
    cases f₂ <;> rfl
  | succ n ih =>
    intro f₂ s h₁ h₂
    cases s with
    | nil => cases f₂ <;> rfl
    | cons c rest =>
      cases f₂ with
      | zero => simp at h₂
      | succ m =>
        simp only [replFuel]
        have hr : rest.length ≤ n := by simpa using h₁
        have hr' : rest.length ≤ m := by simpa using h₂
        by_cases hpre : p.isPrefixOf (c :: rest)
        · simp only [if_pos hpre]
          have hd : (rest.drop (p.length - 1)).length ≤ rest.length := by
            simp [List.length_drop]
          exact congrArg (r ++ ·) (ih m _ (le_trans hd hr) (le_trans hd hr'))
        · simp only [if_neg hpre]
          exact congrArg (c :: ·) (ih m rest hr hr')

/-- Single-step unfolding of `replaceAll` on a non-empty input. -/
theorem replaceAll_cons (p r : List Char) (hp : p ≠ []) (c : Char) (rest : List Char) :
    replaceAll p r (c :: rest) =
      if p.isPrefixOf (c :: rest) then r ++ replaceAll p r (rest.drop (p.length - 1))
      else c :: replaceAll p r rest := by
  have hpe : p.isEmpty = false := by
    cases p with
    | nil => exact absurd rfl hp
    | cons d ps => rfl
  simp only [replaceAll, hpe, Bool.false_eq_true, if_false, List.length_cons]
  simp only [replFuel]
  by_cases hpre : p.isPrefixOf (c :: rest)
  · simp only [if_pos hpre]
    refine congrArg (r ++ ·) ?_
    exact replFuel_congr p r _ _ _ (by simp [List.length_drop]) (le_refl _)
  · simp only [if_neg hpre]

/-- A list is a Boolean prefix of itself followed by anything. -/
theorem isPrefixOf_append_self : ∀ (p b : List Char), p.isPrefixOf (p ++ b) = true := by
  intro p b
  induction p with
  | nil => simp
  | cons d ps ih => simp [List.isPrefixOf, ih]

/-- Core of claim C10: when the first occurrence of `p` in `a ++ (p ++ b)`
is the explicit one after `a`, the replacement removes it wherever it sits
and continues on the tail; occurrences are replaced at every position, not
only at the start of the label. -/
theorem replaceAll_middle (p r : List Char) (hp : p ≠ []) :
    ∀ (a b : List Char),
      (∀ i, i < a.length → p.isPrefixOf ((a ++ (p ++ b)).drop i) = false) →
      replaceAll p r (a ++ (p ++ b)) = a ++ (r ++ replaceAll p r b) := by
  intro a
  induction a with
  | nil =>
    intro b _
    simp only [List.nil_append]
    cases p with
    | nil => exact absurd rfl hp
    | cons d ps =>
      rw [List.cons_append, replaceAll_cons _ _ hp]
      rw [if_pos (by rw [← List.cons_append]; exact isPrefixOf_append_self _ _)]
      simp [List.drop_left]
  | cons c a' ih =>
    intro b hno
    have h0 := hno 0 (by simp)
    simp only [List.cons_append, List.drop_zero] at h0
    rw [List.cons_append, replaceAll_cons _ _ hp, if_neg (by simp [h0])]
    refine congrArg (c :: ·) (ih b ?_)
    intro i hi
    have := hno (i + 1) (by simpa using Nat.succ_lt_succ hi)
    simpa [List.cons_append] using this

/-- First-occurrence decomposition of a successful `find?`. -/
theorem find?_first {α : Type} (p : α → Bool) :
    ∀ (l : List α) (a : α), l.find? p = some a →
      p a = true ∧ ∃ l₁ l₂, l = l₁ ++ a :: l₂ ∧ ∀ x ∈ l₁, p x = false := by
  intro l
  induction l with
  | nil => intro a h; simp [List.find?] at h
  | cons b t ih =>
    intro a h
    by_cases hb : p b
    · rw [List.find?_cons_of_pos _ hb] at h
      have hba : b = a := by simpa using h
      subst hba
      exact ⟨hb, [], t, rfl, by simp⟩
    · have hb' : p b = false := by simpa using hb
      rw [List.find?_cons_of_neg _ (by simp [hb'])] at h
      obtain ⟨hpa, l₁, l₂, rfl, hall⟩ := ih a h
      refine ⟨hpa, b :: l₁, l₂, rfl, ?_⟩
      intro x hx
      rcases List.mem_cons.mp hx with rfl | hx
      · exact hb'
      · exact hall x hx

/-- When every required sheet matches, location succeeds and binds each
logical name to the first matching actual sheet name. -/
theorem locateSheets_ok (names : List (List Char)) :
    ∀ req : List ((List Char) × (List Char)),
      (∀ q ∈ req, (findSheet names q.2).isSome = true) →
      locateSheets names req =
        Except.ok (req.map (fun q => (q.1, (findSheet names q.2).getD q.2))) := by
  intro req
  induction req with
  | nil => intro _; rfl
  | cons q rest ih =>
    intro h
    obtain ⟨key, sub⟩ := q
    obtain ⟨s, hs⟩ := Option.isSome_iff_exists.mp (h (key, sub) (List.mem_cons_self _ _))
    have hrest := ih (fun x hx => h x (List.mem_cons_of_mem _ hx))
    simp only [locateSheets, hs, hrest, List.map_cons, Option.getD_some]

/-- When some required sheet has no match, location fails with the message
naming a missing sheet and yields no bindings at all. -/
theorem locateSheets_err (names : List (List Char)) :
    ∀ req : List ((List Char) × (List Char)),
      (∃ q ∈ req, findSheet names q.2 = none) →
      ∃ q ∈ req, findSheet names q.2 = none ∧
        locateSheets names req = Except.error (missingMsg q.2) := by
  intro req
  induction req with
  | nil => intro h; simp at h
  | cons q rest ih =>
    intro h
    obtain ⟨key, sub⟩ := q
    cases hs : findSheet names sub with
    | none =>
      exact ⟨(key, sub), List.mem_cons_self _ _, hs, by simp [locateSheets, hs]⟩
    | some s =>
      have hrest : ∃ x ∈ rest, findSheet names x.2 = none := by
        obtain ⟨x, hx, hxn⟩ := h
        rcases List.mem_cons.mp hx with rfl | hx
        · rw [hs] at hxn; cases hxn
        · exact ⟨x, hx, hxn⟩
      obtain ⟨x, hx, hxn, hloc⟩ := ih hrest
      refine ⟨x, List.mem_cons_of_mem _ hx, hxn, ?_⟩
      simp [locateSheets, hs, hloc]

/-- Head of a guarded `filterMap` is the mapped first hit of `find?`. -/
theorem head?_filterMap_guard {α β : Type} (p : α → Bool) (f : α → β) :
    ∀ l : List α,
      (l.filterMap (fun a => if p a then some (f a) else none)).head? =
        (l.find? p).map f := by
  intro l
  induction l with
  | nil => rfl
  | cons a t ih =>
    by_cases ha : p a
    · simp [List.filterMap_cons, ha]
    · have ha' : p a = false := by simpa using ha
      simp [List.filterMap_cons, ha', ih]

/-- Relabeling keeps the row count. -/
theorem length_relabelCash : ∀ l : List AARow, (relabelCash l).length = l.length := by
  intro l
  induction l with
  | nil => rfl
  | cons r rest ih =>
    by_cases h : hasCash r
    · simp [relabelCash, h]
    · simp [relabelCash, h, ih]

/-- With no cash row present, relabeling is the identity. -/
theorem relabelCash_of_no_cash :
    ∀ l : List AARow, (∀ r ∈ l, hasCash r = false) → relabelCash l = l := by
  intro l
  induction l with
  | nil => intro _; rfl
  | cons r rest ih =>
    intro h
    have hr := h r (List.mem_cons_self _ _)
    simp [relabelCash, hr, ih fun x hx => h x (List.mem_cons_of_mem _ hx)]

/-- Exactly the first cash row is relabeled; everything else is untouched. -/
theorem relabelCash_split :
    ∀ (pre : List AARow) (r : AARow) (post : List AARow),
      (∀ x ∈ pre, hasCash x = false) → hasCash r = true →
      relabelCash (pre ++ r :: post) =
        pre ++ ({ r with label := cashEquivalents } :: post) := by
  intro pre
  induction pre with
  | nil => intro r post _ hr; simp [relabelCash, hr]
  | cons x pre' ih =>
    intro r post hpre hr
    have hx := hpre x (List.mem_cons_self _ _)
    simp only [List.cons_append, relabelCash, hx, Bool.false_eq_true, if_false,
      List.append_eq]
    rw [ih r post (fun y hy => hpre y (List.mem_cons_of_mem _ hy)) hr]

/-- Rows of the ranked lists come from the eligible-trade set. -/
theorem mem_eligible_of_mem_ranked (rows : List HTRow) (r : HTRow)
    (h : r ∈ topBuys rows ∨ r ∈ topSells rows) : r ∈ eligibleTrades rows := by
  rcases h with h | h
  · have h1 : r ∈ sortDescBy absTrade ((eligibleTrades rows).filter
        (fun r => decide (0 < tradeVal r))) := (List.take_sublist 5 _).subset h
    exact (List.mem_filter.mp ((mem_sortDescBy absTrade _ r).mp h1)).1
  · have h1 : r ∈ sortDescBy absTrade ((eligibleTrades rows).filter
        (fun r => decide (tradeVal r < 0))) := (List.take_sublist 5 _).subset h
    exact (List.mem_filter.mp ((mem_sortDescBy absTrade _ r).mp h1)).1

/-- Every eligible row has a non-custodial ticker and a present, non-zero
trade amount. -/
theorem props_of_mem_eligible (rows : List HTRow) (r : HTRow)
    (h : r ∈ eligibleTrades rows) :
    containsCI custodialMarker r.ticker = false ∧ r.tradeAmt ≠ none ∧ r.tradeAmt ≠ some 0 := by
  obtain ⟨h1, h2⟩ := List.mem_filter.mp h
  obtain ⟨_, h4⟩ := List.mem_filter.mp h1
  have h5 := (Bool.and_eq_true _ _).mp h4
  refine ⟨by simpa using h2, ?_, of_decide_eq_true h5.2⟩
  exact Option.ne_none_iff_isSome.mpr h5.1

/-- Shared shape of the two ranked-list selections. -/
theorem topSelect_props {α : Type} (key : α → ℚ) (l : List α) :
    ((sortDescBy key l).take 5).length = min 5 l.length
    ∧ ((sortDescBy key l).take 5).Pairwise (fun a b => key b ≤ key a)
    ∧ ∀ a ∈ (sortDescBy key l).take 5, a ∈ l := by
  refine ⟨?_, ?_, ?_⟩
  · rw [List.length_take, length_sortDescBy]
  · exact List.Pairwise.sublist (List.take_sublist 5 _) (pairwise_sortDescBy key l)
  · intro a ha
    exact (mem_sortDescBy key l a).mp ((List.take_sublist 5 _).subset ha)

/-- C1: with the account-value column summing to zero and a non-zero
estimated tax, the tax-impact computation of `app.py` line 122 does not
fail: the numpy division silently produces a positive infinity and the
metrics band renders the literal text `inf%`.  (The code has no
zero-denominator check of any kind; the only failure path in
`generate_savvy_pdf` is the generic `except` that would require an
exception, and none is raised.) -/
theorem c1_zero_total_renders_inf :
    accountTotal [(50 : ℚ), -50] = 0
    ∧ taxImpactPct (PFloat.fin 100) (PFloat.fin (accountTotal [(50 : ℚ), -50])) = PFloat.inf
    ∧ taxImpactCell (PFloat.fin 100) (PFloat.fin (accountTotal [(50 : ℚ), -50])) = "inf%".data := by
  have h : accountTotal [(50 : ℚ), -50] = 0 := by norm_num [accountTotal]
  refine ⟨h, ?_, ?_⟩
  · rw [h]; decide
  · rw [h]; decide

/-- C3 counterexample: a sell row whose gain-loss value is zero (here
because the `Trade G/L $` cell is absent and `fillna(0)` zeroes it) still
receives the red accent color: `app.py` line 189 applies
`GREEN if gl_val > 0 else RED` with no zero case, so the zero cell is not
left in the neutral default style. -/
theorem c3_counterexample :
    sellGLCellColor (glVal ⟨none, "SPY".data, "SPDR Trust".data, "1234".data,
      some (-100), none⟩) = some RED
    ∧ (some RED ≠ (none : Option (List Char))) := by
  constructor
  · decide
  · decide

/-- C3 amended: the allocation table's `Change %` and `Trade Amount` cells
are colored by sign with zero kept neutral, while the sell-side gain-loss
cell is always accented: green for strictly positive values and red for
zero or negative ones. -/
theorem c3_sign_coloring :
    (∀ v : ℚ, (v = 0 → aaSignedCellColor v = none)
      ∧ (0 < v → aaSignedCellColor v = some GREEN)
      ∧ (v < 0 → aaSignedCellColor v = some RED))
    ∧ (∀ g : ℚ, (0 < g → sellGLCellColor g = some GREEN)
      ∧ (g ≤ 0 → sellGLCellColor g = some RED)) := by
  constructor
  · intro v
    refine ⟨?_, ?_, ?_⟩
    · intro hv; simp [aaSignedCellColor, hv]
    · intro hv
      have h1 : v ≠ 0 := ne_of_gt hv
      simp [aaSignedCellColor, h1, hv]
    · intro hv
      have h1 : v ≠ 0 := ne_of_lt hv
      have h2 : ¬(0 < v) := not_lt.mpr (le_of_lt hv)
      simp [aaSignedCellColor, h1, h2]
  · intro g
    constructor
    · intro hg; simp [sellGLCellColor, hg]
    · intro hg; simp [sellGLCellColor, not_lt.mpr hg]

/-- Witness for C3 at concrete cell values. -/
theorem c3_witness :
    aaSignedCellColor 0 = none ∧ aaSignedCellColor (5 / 2) = some GREEN
      ∧ sellGLCellColor (-3) = some RED :=
  ⟨(c3_sign_coloring.1 0).1 rfl, (c3_sign_coloring.1 (5 / 2)).2.1 (by norm_num),
    (c3_sign_coloring.2 (-3)).2 (by norm_num)⟩

/-- C4: if every required substring matches some workbook sheet name, each
logical sheet is bound to the first matching actual sheet and location
succeeds; if any required substring matches nothing, the pipeline stops
with an error message naming a missing sheet and returns no bindings (the
`Except` result carries nothing besides the message); the binding found by
`findSheet` is always the first match in sheet order. -/
theorem c4_sheet_location :
    ∀ names : List (List Char),
      ((∀ q ∈ requiredSheets, (findSheet names q.2).isSome = true) →
        locateSheets names requiredSheets =
          Except.ok (requiredSheets.map (fun q => (q.1, (findSheet names q.2).getD q.2))))
      ∧ ((∃ q ∈ requiredSheets, findSheet names q.2 = none) →
        ∃ q ∈ requiredSheets, findSheet names q.2 = none ∧
          locateSheets names requiredSheets = Except.error (missingMsg q.2))
      ∧ (∀ (sub s : List Char), findSheet names sub = some s →
          containsSeq sub s = true ∧
          ∃ pre post, names = pre ++ s :: post ∧ ∀ x ∈ pre, containsSeq sub x = false) := by
  intro names
  refine ⟨locateSheets_ok names requiredSheets, locateSheets_err names requiredSheets, ?_⟩
  intro sub s h
  obtain ⟨hps, pre, post, hsplit, hall⟩ := find?_first (fun s => containsSeq sub s) names s h
  exact ⟨hps, pre, post, hsplit, hall⟩

/-- Witness for C4 at a concrete workbook where every sheet matches. -/
theorem c4_witness :
    locateSheets ["Model Tolerance v2".data, "Holding and Trade Details".data,
        "Gain Loss Details (1)".data, "Account and Cash Details".data] requiredSheets =
      Except.ok (requiredSheets.map (fun q =>
        (q.1, (findSheet ["Model Tolerance v2".data, "Holding and Trade Details".data,
          "Gain Loss Details (1)".data, "Account and Cash Details".data] q.2).getD q.2))) :=
  (c4_sheet_location _).1 (by decide)

/-- C5: no row of the buy or sell ranking has a ticker containing the
custodial-cash marker (case-insensitively), a null trade amount, or a zero
trade amount. -/
theorem c5_no_custodial_no_null_no_zero :
    ∀ (rows : List HTRow) (r : HTRow), r ∈ topBuys rows ∨ r ∈ topSells rows →
      containsCI custodialMarker r.ticker = false
        ∧ r.tradeAmt ≠ none ∧ r.tradeAmt ≠ some 0 :=
  fun rows r h => props_of_mem_eligible rows r (mem_eligible_of_mem_ranked rows r h)

/-- Witness for C5 at a concrete one-row table. -/
theorem c5_witness :
    containsCI custodialMarker "AAPL".data = false
      ∧ (some (500 : ℚ) : Option ℚ) ≠ none
      ∧ (some (500 : ℚ) : Option ℚ) ≠ some 0 :=
  c5_no_custodial_no_null_no_zero
    [⟨none, "AAPL".data, "Apple".data, "12345678.0".data, some 500, none⟩]
    ⟨none, "AAPL".data, "Apple".data, "12345678.0".data, some 500, none⟩
    (Or.inl (by decide))

/-- C6: the buy list has at most five rows, every row a strictly positive
trade amount, absolute trade values non-increasing, and its length is the
minimum of five and the number of eligible positive rows (so fewer
eligible rows just shorten the list); symmetrically for the sell list with
strictly negative amounts. -/
theorem c6_ranked_lists :
    ∀ rows : List HTRow,
      ((topBuys rows).length ≤ 5
        ∧ (∀ r ∈ topBuys rows, 0 < tradeVal r)
        ∧ (topBuys rows).Pairwise (fun a b => absTrade b ≤ absTrade a)
        ∧ (topBuys rows).length =
            min 5 ((eligibleTrades rows).filter (fun r => decide (0 < tradeVal r))).length)
      ∧ ((topSells rows).length ≤ 5
        ∧ (∀ r ∈ topSells rows, tradeVal r < 0)
        ∧ (topSells rows).Pairwise (fun a b => absTrade b ≤ absTrade a)
        ∧ (topSells rows).length =
            min 5 ((eligibleTrades rows).filter (fun r => decide (tradeVal r < 0))).length) := by
  intro rows
  have hb := topSelect_props absTrade
    ((eligibleTrades rows).filter (fun r => decide (0 < tradeVal r)))
  have hs := topSelect_props absTrade
    ((eligibleTrades rows).filter (fun r => decide (tradeVal r < 0)))
  have hbl : (topBuys rows).length =
      min 5 ((eligibleTrades rows).filter (fun r => decide (0 < tradeVal r))).length := hb.1
  have hsl : (topSells rows).length =
      min 5 ((eligibleTrades rows).filter (fun r => decide (tradeVal r < 0))).length := hs.1
  constructor
  · refine ⟨?_, ?_, hb.2.1, hbl⟩
    · rw [hbl]; exact min_le_left _ _
    · intro r hr
      exact of_decide_eq_true (List.mem_filter.mp (hb.2.2 r hr)).2
  · refine ⟨?_, ?_, hs.2.1, hsl⟩
    · rw [hsl]; exact min_le_left _ _
    · intro r hr
      exact of_decide_eq_true (List.mem_filter.mp (hs.2.2 r hr)).2

/-- Witness for C6 at a concrete one-buy table. -/
theorem c6_witness :
    0 < tradeVal ⟨none, "AAPL".data, "Apple".data, "12345678.0".data, some 500, none⟩ :=
  (c6_ranked_lists
    [⟨none, "AAPL".data, "Apple".data, "12345678.0".data, some 500, none⟩]).1.2.1
    ⟨none, "AAPL".data, "Apple".data, "12345678.0".data, some 500, none⟩
    (by decide)

/-- C7: relabeling keeps the row count; with no cash-containing label it is
the identity (and not an error); and when a first cash row exists (every
earlier row lacking `Cash` in its label), exactly that row's label is
overwritten with `Cash Equivalents` while every other row is untouched. -/
theorem c7_cash_relabel :
    ∀ rows : List AARow,
      (relabelCash rows).length = rows.length
      ∧ ((∀ r ∈ rows, hasCash r = false) → relabelCash rows = rows)
      ∧ (∀ (pre : List AARow) (r : AARow) (post : List AARow),
          rows = pre ++ r :: post → (∀ x ∈ pre, hasCash x = false) → hasCash r = true →
          relabelCash rows = pre ++ ({ r with label := cashEquivalents } :: post)) := by
  intro rows
  refine ⟨length_relabelCash rows, relabelCash_of_no_cash rows, ?_⟩
  intro pre r post hrows hpre hr
  rw [hrows]
  exact relabelCash_split pre r post hpre hr

/-- Witness for C7 at a concrete two-row table whose second row is cash. -/
theorem c7_witness :
    relabelCash ([⟨"Equity".data, 60, 55, -5, -5⟩] ++ ⟨"Global Cash".data, 5, 10, 5, 5⟩ :: []) =
      [⟨"Equity".data, 60, 55, -5, -5⟩] ++
        ({ label := cashEquivalents, currentPct := 5, targetPct := 10,
           tradeAmt := 5, changePct := 5 } : AARow) :: [] :=
  (c7_cash_relabel ([⟨"Equity".data, 60, 55, -5, -5⟩] ++
    ⟨"Global Cash".data, 5, 10, 5, 5⟩ :: [])).2.2
    [⟨"Equity".data, 60, 55, -5, -5⟩] ⟨"Global Cash".data, 5, 10, 5, 5⟩ [] rfl
    (by decide) (by decide)

/-- C8: whenever the textual account number has at least four characters
before any decimal point, the derived `Acct4` value has exactly four
characters and is a suffix of that pre-decimal part (the code coerces to
text, truncates at the first dot and keeps the last four characters). -/
theorem c8_account_last4 :
    ∀ s : List Char, 4 ≤ (s.takeWhile (fun c => !(c == '.'))).length →
      (acct4 s).length = 4 ∧ acct4 s <:+ s.takeWhile (fun c => !(c == '.')) := by
  intro s h
  constructor
  · show ((s.takeWhile (fun c => !(c == '.'))).drop
      ((s.takeWhile (fun c => !(c == '.'))).length - 4)).length = 4
    rw [List.length_drop]
    omega
  · exact List.drop_suffix _ _

/-- Witness for C8 at the account text `12345678.0`. -/
theorem c8_witness :
    ((acct4 "12345678.0".data).length = 4
      ∧ acct4 "12345678.0".data <:+ ("12345678.0".data).takeWhile (fun c => !(c == '.')))
    ∧ acct4 "12345678.0".data = "5678".data :=
  ⟨c8_account_last4 _ (by decide), by decide⟩

/-- C9: the report's model name is the trim of the first distinct non-null
category value whose trimmed lowercase form is not `unassigned`
(first-occurrence order), and the fixed default name when no such value
exists; the selection is a total function and never fails. -/
theorem c9_target_model :
    ∀ col : List (Option (List Char)),
      (∀ m : List Char, (modelGuesses col).find? isValidModel = some m →
        targetModel col = trim m)
      ∧ ((modelGuesses col).find? isValidModel = none → targetModel col = defaultModel) := by
  intro col
  have hh := head?_filterMap_guard isValidModel trim (modelGuesses col)
  constructor
  · intro m hm
    rw [targetModel, List.headD_eq_head?_getD, hh, hm]
    rfl
  · intro hm
    rw [targetModel, List.headD_eq_head?_getD, hh, hm]
    rfl

/-- Witness for C9 at a concrete category column. -/
theorem c9_witness :
    targetModel [some "  unassigned ".data, none, some "Savvy Growth".data] =
      trim ("Savvy Growth".data) :=
  (c9_target_model _).1 _ (by decide)

/-- C10: each configured cleanup string is removed wherever it occurs, not
only as a leading prefix of the label (whenever the shown occurrence is
the first one, the replacement deletes it in place and continues on the
tail), and a concrete label containing two of the configured strings,
neither at the start, loses both. -/
theorem c10_cleanup_removed_everywhere :
    (∀ p ∈ cleanupStrings, ∀ a b : List Char,
      (∀ i, i < a.length → p.isPrefixOf ((a ++ (p ++ b)).drop i) = false) →
      replaceAll p [] (a ++ (p ++ b)) = a ++ replaceAll p [] b)
    ∧ stripCleanup ("ABC Savvy Total Portfolios - Savvy US Equity - X".data) = "ABC X".data := by
  constructor
  · intro p hp a b hno
    have hpne : p ≠ [] := by
      simp only [cleanupStrings, List.mem_cons, List.not_mem_nil, or_false] at hp
      rcases hp with rfl | rfl | rfl | rfl <;> decide
    have h := replaceAll_middle p [] hpne a b hno
    simpa using h
  · decide

/-- Witness for C10 at a concrete mid-string occurrence. -/
theorem c10_witness :
    replaceAll ("Savvy US Equity - ".data) []
        ("AB".data ++ ("Savvy US Equity - ".data ++ "CD".data)) =
      "AB".data ++ replaceAll ("Savvy US Equity - ".data) [] ("CD".data) :=
  c10_cleanup_removed_everywhere.1 _ (by decide) _ _ (by decide)

end Savvy
